import Mathlib

/-!
Verification of the dual-stream geometric-linguistic fusion algorithm.

This file gives a shallow embedding of the two fusion realizations of the
repository:

* `src/dual_stream_fusion.py` — `get_google_words_robust`, `join_words_smart`
  and the core of `build_hybrid_entry` (the part after the JSON files are
  loaded from disk; file I/O is glue and is not modelled);
* `src/fusion_alg.py` — `deterministic_hybrid_fusion` with its inner helper
  `get_centroid`.

Modelling choices:

* Python floats are modelled as rationals (`ℚ`); no claim here depends on
  floating-point rounding.
* Python's raising of `ZeroDivisionError` is modelled by returning `none`
  (`Option`): a fallible computation yields `none` exactly when the source
  would raise.
* Python's stable `list.sort(key=...)` / `sorted(key=...)` is modelled by
  `List.insertionSort` with the corresponding key comparison, which is a
  stable sort.
* `sort_key` values are embedded into `ℕ∞`: the dual-stream variant only ever
  stores natural numbers (`chunk[0]` or the literal `999999`), the
  `fusion_alg` variant stores `float('inf')` for empty blocks, which is `⊤`.
* region records additionally carry a ghost field `run` — the list of token
  indices the region was built from (the `chunk` in the source, `[]` for an
  empty-block placeholder) — and, for the dual-stream variant, a ghost field
  `orphan` marking regions emitted by the orphan branch.  Both fields are
  specification-only observers; they are dropped (together with `sort_key`)
  by the output projection, exactly as the source drops `sort_key`.
-/

namespace DocAI

/-- Python's `s.startswith(pre)`, modelled on the character list. -/
def pyStartsWith (s pre : String) : Bool :=
  pre.data.isPrefixOf s.data

/-- One fuelled step list of Python's `s.replace(pat, rep)` over character
lists: at each position, if the (nonempty) pattern starts here, emit the
replacement and skip the pattern, else keep the character.  The fuel is the
length of the scanned list, which suffices since every step consumes at
least one character. -/
def pyReplaceChars (pat rep : List Char) : ℕ → List Char → List Char
  | 0, l => l
  | _ + 1, [] => []
  | fuel + 1, c :: cs =>
    if pat ≠ [] ∧ pat.isPrefixOf (c :: cs) then
      rep ++ pyReplaceChars pat rep fuel ((c :: cs).drop pat.length)
    else c :: pyReplaceChars pat rep fuel cs

/-- Python's `s.replace(pat, rep)` (for a nonempty pattern, the only use in
the source: stripping the `LAYOUT_` marker). -/
def pyReplace (s pat rep : String) : String :=
  ⟨pyReplaceChars pat.data rep.data s.data.length s.data⟩

/-- Python's `s.strip()`: drop leading and trailing whitespace. -/
def pyStrip (s : String) : String :=
  ⟨((s.data.dropWhile Char.isWhitespace).reverse.dropWhile Char.isWhitespace).reverse⟩

/-- 2% spatial tolerance, `TOLERANCE = 0.02` in both source files. -/
def TOLERANCE : ℚ := 2/100

/-- A rectangle `(left, top, right, bottom)` in normalized page coordinates.
In `dual_stream_fusion.py` this is the 4-element list `coords`; in
`fusion_alg.py` these are the four separate keys of a prepared block. -/
structure Rect where
  left : ℚ
  top : ℚ
  right : ℚ
  bottom : ℚ
deriving DecidableEq

/-- The centroid-inclusion test with tolerance used by both variants:
`c[0]-TOLERANCE <= w_x <= c[2]+TOLERANCE and c[1]-TOLERANCE <= w_y <= c[3]+TOLERANCE`. -/
def Rect.containsTol (r : Rect) (x y : ℚ) : Prop :=
  (r.left - TOLERANCE ≤ x ∧ x ≤ r.right + TOLERANCE) ∧
    (r.top - TOLERANCE ≤ y ∧ y ≤ r.bottom + TOLERANCE)

instance (r : Rect) (x y : ℚ) : Decidable (r.containsTol x y) := by
  unfold Rect.containsTol; infer_instance

/-- The four coordinates as the list `[left, top, right, bottom]`. -/
def Rect.toList (r : Rect) : List ℚ := [r.left, r.top, r.right, r.bottom]

/-- Index of the first element of the list satisfying `p`, if any.  This is
the denotation of the `for ...: if cond: best = ...; break` loops of both
variants: the token is matched to the first block that passes the inclusion
test and no later block is considered. -/
def firstIdxP (p : α → Prop) [DecidablePred p] : List α → Option ℕ
  | [] => none
  | a :: l => if p a then some 0 else (firstIdxP p l).map (· + 1)

/-- `collectWhere q i ws`: the `i`-based indices of the elements of `ws`
satisfying `q`, in ascending order. -/
def collectWhere (q : α → Prop) [DecidablePred q] : ℕ → List α → List ℕ
  | _, [] => []
  | i, w :: ws =>
    if q w then i :: collectWhere q (i + 1) ws
    else collectWhere q (i + 1) ws

/-- `collectMatched asg j 0 ws` collects, in ascending order, the indices of
the elements of `ws` whose assignment is block `j`.  This is the functional
reading of the assignment loop: block `j`'s `matched_indices` list receives
exactly the token indices whose first matching block is `j`, in increasing
token order. -/
def collectMatched (asg : α → Option ℕ) (j : ℕ) : ℕ → List α → List ℕ :=
  collectWhere (fun w => asg w = some j)

/-- `collectOrphans asg 0 ws`: indices of the elements matched by no block,
in ascending order —
`[i for i in range(len(words)) if i not in used_indices]`. -/
def collectOrphans (asg : α → Option ℕ) : ℕ → List α → List ℕ :=
  collectWhere (fun w => asg w = none)

/-- Tail of the chunk-splitting loop shared by both chunking sites of
`build_hybrid_entry`: `cur` is the current (nonempty) chunk, `acc` the
finished chunks; a gap (`x > current_chunk[-1] + 1`) closes the current
chunk. -/
def chunksGo (acc : List (List ℕ)) (cur : List ℕ) : List ℕ → List (List ℕ)
  | [] => acc ++ [cur]
  | x :: xs =>
    if cur.getLastD 0 + 1 < x then chunksGo (acc ++ [cur]) [x] xs
    else chunksGo acc (cur ++ [x]) xs

/-- Splits a sorted index list into maximal runs of consecutive integers;
the `chunks` loop of `build_hybrid_entry` (used for matched indices and for
orphans alike).  The source never runs it on an empty list; `[]` is mapped
to no chunks. -/
def splitChunks : List ℕ → List (List ℕ)
  | [] => []
  | x :: xs => chunksGo [] [x] xs

/-! ## Google-side input model (`dual_stream_fusion.py`) -/

/-- One vertex of a `boundingBox`; `x`/`y` may be absent (`v.get('x', 0)`). -/
structure GVertex where
  x : Option ℚ
  y : Option ℚ
deriving DecidableEq

/-- One symbol of a word: its text (`s.get('text','')`) and the
`property.detectedBreak.type` chain, `none` when any link is missing. -/
structure GSymbol where
  text : String
  breakType : Option String
deriving DecidableEq

/-- One word of `fullTextAnnotation`: symbols and `boundingBox.vertices`. -/
structure GWord where
  symbols : List GSymbol
  vertices : List GVertex
deriving DecidableEq

/-- A paragraph: its words. -/
structure GPara where
  words : List GWord
deriving DecidableEq

/-- A block of the Google annotation: its paragraphs. -/
structure GBlock where
  paragraphs : List GPara
deriving DecidableEq

/-- A page: declared `width`/`height` (absent keys are `none`) and blocks. -/
structure GPage where
  width : Option ℚ
  height : Option ℚ
  blocks : List GBlock
deriving DecidableEq

/-- A normalized token as produced by `get_google_words_robust`:
the entries of `words_raw`. -/
structure NormWord where
  text : String
  break_type : Option String
  center_x : ℚ
  center_y : ℚ
deriving DecidableEq

instance : Inhabited NormWord := ⟨⟨"", none, 0, 0⟩⟩

/-- `''.join(s.get('text','') for s in word.get('symbols', []))`. -/
def wordText (w : GWord) : String :=
  String.join (w.symbols.map (·.text))

/-- The `detectedBreak` of the last symbol of the word, when the word has
symbols. -/
def wordBreak (w : GWord) : Option String :=
  match w.symbols.getLast? with
  | some s => s.breakType
  | none => none

/-- The per-word body of PASS 2 of `get_google_words_robust` over one list of
words, given the page's effective dimensions: a word with no vertices is
skipped (`if not vertices: continue` — likewise the redundant
`if not xs: continue`), otherwise its pixel centroid is normalized by the
effective page dimensions. -/
def extractParaWords (current_w current_h : ℚ) (ws : List GWord) : List NormWord :=
  ws.filterMap (fun w =>
    if w.vertices.isEmpty then none
    else
      let xs := w.vertices.map (fun v => v.x.getD 0)
      let ys := w.vertices.map (fun v => v.y.getD 0)
      some { text := wordText w
             break_type := wordBreak w
             center_x := xs.sum / (xs.length : ℚ) / current_w
             center_y := ys.sum / (ys.length : ℚ) / current_h })

/-- All words of a page in order (`blocks`/`paragraphs`/`words` nesting),
extracted with the page's effective dimensions. -/
def extractPageWords (current_w current_h : ℚ) (p : GPage) : List NormWord :=
  extractParaWords current_w current_h
    (((p.blocks.map (·.paragraphs)).flatten.map (·.words)).flatten)

/-- PASS 2 for one page: the effective dimensions are the page's own declared
ones, defaulting to the global maxima when the key is absent
(`page.get('width', max_x)`) and replaced by `1.0` when `≤ 0`. -/
def pageWords (max_x max_y : ℚ) (p : GPage) : List NormWord :=
  let cw0 := p.width.getD max_x
  let ch0 := p.height.getD max_y
  extractPageWords (if cw0 ≤ 0 then 1 else cw0) (if ch0 ≤ 0 then 1 else ch0) p

/-- `get_google_words_robust`: PASS 1 computes global maximal declared
dimensions (starting from `1.0`, missing keys read as `0`), PASS 2 extracts
and normalizes every word page by page.  Returns
`(words_raw, max_x, max_y)`. -/
def get_google_words_robust (pages : List GPage) : List NormWord × ℚ × ℚ :=
  if pages.isEmpty then ([], 1, 1)
  else
    let max_x := pages.foldl (fun m p => if m < p.width.getD 0 then p.width.getD 0 else m) 1
    let max_y := pages.foldl (fun m p => if m < p.height.getD 0 then p.height.getD 0 else m) 1
    ((pages.map (pageWords max_x max_y)).flatten, max_x, max_y)

/-- The separator that `join_words_smart` inserts after a word, decided by
the word's `break_type`. -/
def breakSep (bt : Option String) : String :=
  if bt = some ("EOL_SURE_SPACE") ∨ bt = some ("LINE_BREAK") then "\n"
  else if bt = some ("SPACE") ∨ bt = some ("SURE_SPACE") then " "
  else if bt = some ("HYPHEN") then " -"
  else ""

/-- `join_words_smart`: concatenates the word texts, inserting after every
word except the last the separator chosen by its break type. -/
def join_words_smart : List NormWord → String
  | [] => ""
  | [w] => w.text
  | w :: w' :: ws => w.text ++ breakSep w.break_type ++ join_words_smart (w' :: ws)

/-! ## AWS-side input model -/

/-- A raw AWS block as both variants read it: `Id`, `BlockType` and the
`Geometry.BoundingBox` keys `Left`, `Top`, `Width`, `Height`. -/
structure AwsBlock where
  id : String
  blockType : String
  left : ℚ
  top : ℚ
  width : ℚ
  height : ℚ
deriving DecidableEq

/-! ## `build_hybrid_entry` (dual-stream variant) -/

/-- A prepared layout block of `build_hybrid_entry`: label (the `BlockType`
with the `LAYOUT_` marker removed), coordinate rectangle and area.  The
`matched_indices` accumulator of the source is represented functionally by
`collectMatched`. -/
structure BlockInfo where
  label : String
  coords : Rect
  area : ℚ
deriving DecidableEq

/-- Block preparation of `build_hybrid_entry`: keep the `LAYOUT_*` blocks,
build label/coords/area, sort ascending by area (Python's stable sort). -/
def prepareBlocks (aws : List AwsBlock) : List BlockInfo :=
  ((aws.filter (fun b => pyStartsWith b.blockType ("LAYOUT_"))).map (fun b =>
      { label := pyReplace b.blockType ("LAYOUT_") ("")
        coords := ⟨b.left, b.top, b.left + b.width, b.top + b.height⟩
        area := b.width * b.height })).insertionSort (fun a b => a.area ≤ b.area)

/-- The word-assignment of `build_hybrid_entry`: the position of the first
prepared block whose rectangle contains the word's centroid (with
tolerance), `none` when no block matches. -/
def dualAssign (blocks : List BlockInfo) (w : NormWord) : Option ℕ :=
  firstIdxP (fun b => b.coords.containsTol w.center_x w.center_y) blocks

/-- An output region of `build_hybrid_entry` before `sort_key` is stripped.
`run` and `orphan` are ghost fields (see the file header). -/
structure Region where
  label : String
  box_2d : List ℚ
  text : String
  sort_key : ℕ∞
  run : List ℕ
  orphan : Bool
deriving DecidableEq

/-- The region emitted for one chunk of a block's matched indices. -/
def chunkRegion (words : List NormWord) (b : BlockInfo) (chunk : List ℕ) : Region :=
  { label := b.label
    box_2d := b.coords.toList
    text := join_words_smart (chunk.map (fun idx => words.getD idx default))
    sort_key := ((chunk.headD 0 : ℕ) : ℕ∞)
    run := chunk
    orphan := false }

/-- The placeholder region preserving an empty block
(`sort_key = 999999`, pushed to the end). -/
def emptyBlockRegion (b : BlockInfo) : Region :=
  { label := b.label
    box_2d := b.coords.toList
    text := ""
    sort_key := ((999999 : ℕ) : ℕ∞)
    run := []
    orphan := false }

/-- The regions contributed by one block: its matched indices are sorted
defensively; an empty block yields its placeholder, otherwise one region per
contiguous chunk. -/
def regionsOfBlock (words : List NormWord) (b : BlockInfo) (matched : List ℕ) :
    List Region :=
  let indices := matched.insertionSort (· ≤ ·)
  if indices.isEmpty then [emptyBlockRegion b]
  else (splitChunks indices).map (chunkRegion words b)

/-- The `for block in block_info` reconstruction loop, with `j` the position
of the block in the prepared (area-sorted) list. -/
def blockRegionsGo (blocks : List BlockInfo) (words : List NormWord) :
    ℕ → List BlockInfo → List Region
  | _, [] => []
  | j, b :: bs =>
    regionsOfBlock words b (collectMatched (dualAssign blocks) j 0 words) ++
      blockRegionsGo blocks words (j + 1) bs

/-- The region emitted for one orphan chunk: generic `Paragraph` label and
the degenerate point box at the mean centroid of the chunk's words. -/
def orphanRegion (words : List NormWord) (chunk : List ℕ) : Region :=
  let chunk_words := chunk.map (fun idx => words.getD idx default)
  let avg_x := (chunk_words.map (·.center_x)).sum / (chunk_words.length : ℚ)
  let avg_y := (chunk_words.map (·.center_y)).sum / (chunk_words.length : ℚ)
  { label := "Paragraph"
    box_2d := [avg_x, avg_y, avg_x, avg_y]
    text := join_words_smart chunk_words
    sort_key := ((chunk.headD 0 : ℕ) : ℕ∞)
    run := chunk
    orphan := true }

/-- The full region list of `build_hybrid_entry` before `sort_key` is
stripped: matched-block regions, then orphan regions, sorted stably by
`sort_key` ascending. -/
def finalRegions (blocks : List BlockInfo) (words : List NormWord) : List Region :=
  let blockRegs := blockRegionsGo blocks words 0 blocks
  let orphans := collectOrphans (dualAssign blocks) 0 words
  let orphanRegs :=
    if orphans.isEmpty then [] else (splitChunks orphans).map (orphanRegion words)
  (blockRegs ++ orphanRegs).insertionSort (fun a b => a.sort_key ≤ b.sort_key)

/-- An emitted region: `sort_key` (and the ghost fields) stripped. -/
structure OutputRegion where
  label : String
  box_2d : List ℚ
  text : String
deriving DecidableEq

/-- The stripping comprehension `{k: v for k, v in r.items() if k != 'sort_key'}`. -/
def stripKey (r : Region) : OutputRegion :=
  { label := r.label, box_2d := r.box_2d, text := r.text }

/-- The per-document output record of `build_hybrid_entry`
(minus the filename, which is I/O glue). -/
structure HybridEntry where
  width : ℚ
  height : ℚ
  annotations : List OutputRegion
  words_found : ℕ
deriving DecidableEq

/-- The core of `build_hybrid_entry`, after the two JSON files are loaded:
extract and normalize the Google words (`return None` — `none` — when no
word survives), prepare the AWS blocks, assign, reconstruct, sort, strip. -/
def build_hybrid_entry (aws : List AwsBlock) (pages : List GPage) : Option HybridEntry :=
  let res := get_google_words_robust pages
  let google_words := res.1
  if google_words.isEmpty then none
  else
    some { width := res.2.1
           height := res.2.2
           annotations := (finalRegions (prepareBlocks aws) google_words).map stripKey
           words_found := google_words.length }

/-! ## `deterministic_hybrid_fusion` (`fusion_alg.py`) -/

/-- A GCV token as `fusion_alg.py` reads it: `description`,
`boundingPoly.vertices` and the `property.detectedBreak.type` chain
(`none` when a link is missing; the source defaults it to `'UNKNOWN'`). -/
structure GToken where
  description : String
  vertices : List GVertex
  break_type : Option String
deriving DecidableEq

instance : Inhabited GToken := ⟨⟨"", [], none⟩⟩

/-- `get_centroid`: the mean of the vertex coordinates normalized by the page
dimensions.  The source divides by `len(x_vals)` and by `w`/`h` with no
guard, so an empty vertex list — or a zero page dimension — raises
`ZeroDivisionError`; this is modelled by `none`. -/
def get_centroid (token : GToken) (w h : ℚ) : Option (ℚ × ℚ) :=
  let x_vals := token.vertices.map (fun v => v.x.getD 0)
  let y_vals := token.vertices.map (fun v => v.y.getD 0)
  if x_vals.length = 0 ∨ w = 0 ∨ h = 0 then none
  else some (x_vals.sum / (x_vals.length : ℚ) / w, y_vals.sum / (y_vals.length : ℚ) / h)

/-- The centroids of all tokens in order; `none` as soon as any token makes
`get_centroid` raise (the exception aborts the whole Python call). -/
def centroids (w h : ℚ) : List GToken → Option (List (ℚ × ℚ))
  | [] => some []
  | t :: ts =>
    match get_centroid t w h, centroids w h ts with
    | some c, some cs => some (c :: cs)
    | _, _ => none

/-- A prepared block of `deterministic_hybrid_fusion`: id, label
(the raw `BlockType`), the four rectangle coordinates and the area. -/
structure FBlock where
  id : String
  label : String
  rect : Rect
  area : ℚ
deriving DecidableEq

/-- Step 1: prepare the layout blocks and sort ascending by area. -/
def prepare_fblocks (aws : List AwsBlock) : List FBlock :=
  (aws.map (fun b =>
      { id := b.id
        label := b.blockType
        rect := ⟨b.left, b.top, b.left + b.width, b.top + b.height⟩
        area := b.width * b.height })).insertionSort (fun a b => a.area ≤ b.area)

/-- Step 2 assignment: first prepared block containing the centroid. -/
def fusionAssign (blocks : List FBlock) (c : ℚ × ℚ) : Option ℕ :=
  firstIdxP (fun b => b.rect.containsTol c.1 c.2) blocks

/-- The separator appended after a token by the reconstruction of
`fusion_alg.py` (`detected_break` defaults to `'UNKNOWN'`; `HYPHEN` falls
into the default case and inserts nothing). -/
def fusionBreakSep (bt : Option String) : String :=
  let detected := bt.getD ("UNKNOWN")
  if detected = "SPACE" ∨ detected = "SURE_SPACE" then " "
  else if detected = "EOL_SURE_SPACE" ∨ detected = "LINE_BREAK" then "\n"
  else ""

/-- The raw text accumulation of `fusion_alg.py`: for every token of the run
(including the last) append its text and then its separator.  Both the
block branch and the orphan branch of the source use this identical loop and
then `.strip()` the result. -/
def fusionJoinRaw (tokens : List GToken) : String :=
  tokens.foldl (fun acc t => acc ++ t.description ++ fusionBreakSep t.break_type) ""

/-- A region of `deterministic_hybrid_fusion` (the source returns these
dicts with `sort_key` still present).  `run` is the ghost index list. -/
structure FRegion where
  label : String
  text : String
  sort_key : ℕ∞
  coords : List ℚ
  run : List ℕ
deriving DecidableEq

/-- Case A of Step 3: the `sort_key = float('inf')` placeholder preserving
an empty block. -/
def emptyFBlockRegion (b : FBlock) : FRegion :=
  { label := b.label, text := "", sort_key := ⊤, coords := b.rect.toList, run := [] }

/-- Case B of Step 3: the single region covering ALL the (sorted) matched
indices of one block. -/
def fchunkRegion (tokens : List GToken) (b : FBlock) (idxs : List ℕ) : FRegion :=
  { label := b.label
    text := pyStrip (fusionJoinRaw (idxs.map (fun i => tokens.getD i default)))
    sort_key := ((idxs.headD 0 : ℕ) : ℕ∞)
    coords := b.rect.toList
    run := idxs }

/-- Step 4: the single generic `Paragraph` region covering ALL orphan
indices, with placeholder coords `[0, 0, 0, 0]`. -/
def fusionOrphanRegion (tokens : List GToken) (orphans : List ℕ) : FRegion :=
  { label := "Paragraph"
    text := pyStrip (fusionJoinRaw (orphans.map (fun i => tokens.getD i default)))
    sort_key := ((orphans.headD 0 : ℕ) : ℕ∞)
    coords := [0, 0, 0, 0]
    run := orphans }

/-- Step 3, one block: sort the matched indices; an empty block yields the
`sort_key = float('inf')` placeholder; a nonempty block yields ONE region
covering all its matched indices (the source does not split into contiguous
runs, its `current_run` variable is dead code). -/
def fregionsOfBlock (tokens : List GToken) (b : FBlock) (matched : List ℕ) :
    List FRegion :=
  let idxs := matched.insertionSort (· ≤ ·)
  if idxs.isEmpty then [emptyFBlockRegion b]
  else [fchunkRegion tokens b idxs]

/-- Step 3 over all blocks, `j` the block's position in the sorted list. -/
def fblockRegionsGo (blocks : List FBlock) (tokens : List GToken)
    (cents : List (ℚ × ℚ)) : ℕ → List FBlock → List FRegion
  | _, [] => []
  | j, b :: bs =>
    fregionsOfBlock tokens b (collectMatched (fusionAssign blocks) j 0 cents) ++
      fblockRegionsGo blocks tokens cents (j + 1) bs

/-- Steps 3–5 of `deterministic_hybrid_fusion` given the prepared blocks and
token centroids: reconstruct block regions, group ALL orphans into a single
`Paragraph` region with placeholder coords `[0,0,0,0]`, and sort by
`sort_key`. -/
def fusionCore (blocks : List FBlock) (tokens : List GToken)
    (cents : List (ℚ × ℚ)) : List FRegion :=
  let blockRegs := fblockRegionsGo blocks tokens cents 0 blocks
  let orphan_indices := collectOrphans (fusionAssign blocks) 0 cents
  let orphanRegs :=
    if orphan_indices.isEmpty then []
    else [fusionOrphanRegion tokens orphan_indices]
  (blockRegs ++ orphanRegs).insertionSort (fun a b => a.sort_key ≤ b.sort_key)

/-- `deterministic_hybrid_fusion`: prepare blocks, compute centroids
(`none` models the `ZeroDivisionError` of `get_centroid`), then steps 3–5. -/
def deterministic_hybrid_fusion (aws_layout_blocks : List AwsBlock)
    (google_ocr_tokens : List GToken) (page_width page_height : ℚ) :
    Option (List FRegion) :=
  match centroids page_width page_height google_ocr_tokens with
  | none => none
  | some cents =>
    some (fusionCore (prepare_fblocks aws_layout_blocks) google_ocr_tokens cents)

/-! ## Concrete test documents

Small concrete inputs used to instantiate the claims: a `LAYOUT_TEXT` block
covering the upper-left quarter of the page, tokens inside it at
`(1/4, 1/4)` and outside it at `(9/10, 9/10)`, and the literal token pairs
of the spec's break-reconstruction examples. -/

/-- A layout block covering `[0, 1/2] × [0, 1/2]`. -/
def quarterBlock : AwsBlock := ⟨"b1", "LAYOUT_TEXT", 0, 0, 1/2, 1/2⟩

/-- Seven normalized words: indices 0, 1, 2, 5, 6 inside `quarterBlock`,
indices 3 and 4 outside it. -/
def gapWords : List NormWord :=
  [⟨"w0", none, 1/4, 1/4⟩, ⟨"w1", none, 1/4, 1/4⟩, ⟨"w2", none, 1/4, 1/4⟩,
   ⟨"w3", none, 9/10, 9/10⟩, ⟨"w4", none, 9/10, 9/10⟩,
   ⟨"w5", none, 1/4, 1/4⟩, ⟨"w6", none, 1/4, 1/4⟩]

/-- The same seven tokens in `fusion_alg.py` input form (one vertex each,
page dimensions 1 × 1). -/
def gapTokens : List GToken :=
  [⟨"w0", [⟨some (1/4), some (1/4)⟩], none⟩,
   ⟨"w1", [⟨some (1/4), some (1/4)⟩], none⟩,
   ⟨"w2", [⟨some (1/4), some (1/4)⟩], none⟩,
   ⟨"w3", [⟨some (9/10), some (9/10)⟩], none⟩,
   ⟨"w4", [⟨some (9/10), some (9/10)⟩], none⟩,
   ⟨"w5", [⟨some (1/4), some (1/4)⟩], none⟩,
   ⟨"w6", [⟨some (1/4), some (1/4)⟩], none⟩]

/-- A single word outside `quarterBlock`. -/
def farWord : NormWord := ⟨"w", none, 9/10, 9/10⟩

/-- The same single far token in `fusion_alg.py` input form. -/
def farToken : GToken := ⟨"w", [⟨some (9/10), some (9/10)⟩], none⟩

/-- A word whose own text carries leading whitespace. -/
def paddedWord : NormWord := ⟨" a", none, 9/10, 9/10⟩

/-- A token with an empty vertex list: no usable geometry. -/
def noGeomToken : GToken := ⟨"x", [], none⟩

/-- A Google word with no vertices at all. -/
def ghostWord : GWord := ⟨[⟨"ghost", none⟩], []⟩

/-- A Google word with one vertex at pixel `(50, 50)`. -/
def realWord : GWord := ⟨[⟨"real", none⟩], [⟨some 50, some 50⟩]⟩

/-- A 100 × 100 page containing `ghostWord` then `realWord`. -/
def dropPage : GPage := ⟨some 100, some 100, [⟨[⟨[ghostWord, realWord]⟩]⟩]⟩

/-- A page declaring dimensions `1/2 × 1/2` (both positive but below the
`1.0` the extractor starts its running maxima from). -/
def smallPage : GPage := ⟨some (1/2), some (1/2), []⟩

/-- A 100 × 200 page with one word whose single vertex is `(50, 100)`. -/
def pageA : GPage :=
  ⟨some 100, some 200, [⟨[⟨[⟨[⟨"a", none⟩], [⟨some 50, some 100⟩]⟩]⟩]⟩]⟩

/-- A larger 400 × 300 page with no words, only there to dominate the
global maxima. -/
def pageB : GPage := ⟨some 400, some 300, []⟩

/-- `"Hydro"` carrying a `HYPHEN` break, as a normalized word. -/
def hydroWord : NormWord := ⟨"Hydro", some ("HYPHEN"), 0, 0⟩

/-- `"gen"` with no break, as a normalized word. -/
def genWord : NormWord := ⟨"gen", none, 0, 0⟩

/-- `"Hydro"` carrying a `HYPHEN` break, as a `fusion_alg.py` token. -/
def hydroToken : GToken := ⟨"Hydro", [⟨some 0, some 0⟩], some ("HYPHEN")⟩

/-- `"gen"` with no break, as a `fusion_alg.py` token. -/
def genToken : GToken := ⟨"gen", [⟨some 0, some 0⟩], none⟩

/-- Two nested layout rectangles: the full page and its upper-left
`3/10 × 3/10` corner, the larger one listed first. -/
def nestBlocks : List AwsBlock :=
  [⟨"big", "LAYOUT_TABLE", 0, 0, 1, 1⟩, ⟨"small", "LAYOUT_TEXT", 0, 0, 3/10, 3/10⟩]

/-- A word at `(1/10, 1/10)`, inside both rectangles of `nestBlocks`. -/
def nestWord : NormWord := ⟨"t", none, 1/10, 1/10⟩

/-- The same token in `fusion_alg.py` input form. -/
def nestToken : GToken := ⟨"t", [⟨some (1/10), some (1/10)⟩], none⟩

instance : IsTotal BlockInfo (fun a b => a.area ≤ b.area) :=
  ⟨fun a b => le_total a.area b.area⟩

instance : IsTrans BlockInfo (fun a b => a.area ≤ b.area) :=
  ⟨fun _ _ _ h1 h2 => le_trans h1 h2⟩

instance : IsTotal FBlock (fun a b => a.area ≤ b.area) :=
  ⟨fun a b => le_total a.area b.area⟩

instance : IsTrans FBlock (fun a b => a.area ≤ b.area) :=
  ⟨fun _ _ _ h1 h2 => le_trans h1 h2⟩

instance : IsTotal Region (fun a b => a.sort_key ≤ b.sort_key) :=
  ⟨fun a b => le_total a.sort_key b.sort_key⟩

instance : IsTrans Region (fun a b => a.sort_key ≤ b.sort_key) :=
  ⟨fun _ _ _ h1 h2 => le_trans h1 h2⟩

instance : IsTotal FRegion (fun a b => a.sort_key ≤ b.sort_key) :=
  ⟨fun a b => le_total a.sort_key b.sort_key⟩

instance : IsTrans FRegion (fun a b => a.sort_key ≤ b.sort_key) :=
  ⟨fun _ _ _ h1 h2 => le_trans h1 h2⟩

/-! ## Library of auxiliary facts -/

theorem firstIdxP_none_iff {p : α → Prop} [DecidablePred p] {l : List α} :
    firstIdxP p l = none ↔ ∀ a ∈ l, ¬ p a := by
  induction l with
  | nil => simp [firstIdxP]
  | cons a l ih =>
    by_cases h : p a
    · simp [firstIdxP, h]
    · simp [firstIdxP, h, Option.map_eq_none', ih]

theorem firstIdxP_spec {p : α → Prop} [DecidablePred p] {l : List α} {j : ℕ}
    (h : firstIdxP p l = some j) :
    ∃ a, l[j]? = some a ∧ p a ∧ ∀ i b, i < j → l[i]? = some b → ¬ p b := by
  induction l generalizing j with
  | nil => simp [firstIdxP] at h
  | cons a l ih =>
    by_cases hpa : p a
    · simp only [firstIdxP, if_pos hpa, Option.some.injEq] at h
      subst h
      exact ⟨a, by simp, hpa, fun i b hi => by omega⟩
    · simp only [firstIdxP, if_neg hpa, Option.map_eq_some'] at h
      obtain ⟨j', hj', rfl⟩ := h
      obtain ⟨b, hb, hpb, hmin⟩ := ih hj'
      refine ⟨b, by simpa using hb, hpb, ?_⟩
      intro i c hij hic
      match i with
      | 0 =>
        simp only [List.getElem?_cons_zero, Option.some.injEq] at hic
        subst hic; exact hpa
      | i' + 1 =>
        exact hmin i' c (by omega) (by simpa using hic)

theorem firstIdxP_lt_length {p : α → Prop} [DecidablePred p] {l : List α} {j : ℕ}
    (h : firstIdxP p l = some j) : j < l.length := by
  obtain ⟨a, ha, -⟩ := firstIdxP_spec h
  exact (List.getElem?_eq_some_iff.1 ha).1

theorem mem_collectWhere {q : α → Prop} [DecidablePred q] {ws : List α} {k i : ℕ} :
    i ∈ collectWhere q k ws ↔ ∃ m w, ws[m]? = some w ∧ i = k + m ∧ q w := by
  induction ws generalizing k with
  | nil => simp [collectWhere]
  | cons w ws ih =>
    by_cases hq : q w
    · simp only [collectWhere, if_pos hq, List.mem_cons, ih]
      constructor
      · rintro (rfl | ⟨m, w', hm, rfl, hq'⟩)
        · exact ⟨0, w, by simp, by omega, hq⟩
        · exact ⟨m + 1, w', by simpa using hm, by omega, hq'⟩
      · rintro ⟨m, w', hm, rfl, hq'⟩
        match m with
        | 0 => left; omega
        | m' + 1 =>
          right; exact ⟨m', w', by simpa using hm, by omega, hq'⟩
    · simp only [collectWhere, if_neg hq, ih]
      constructor
      · rintro ⟨m, w', hm, rfl, hq'⟩
        exact ⟨m + 1, w', by simpa using hm, by omega, hq'⟩
      · rintro ⟨m, w', hm, rfl, hq'⟩
        match m with
        | 0 =>
          simp only [List.getElem?_cons_zero, Option.some.injEq] at hm
          subst hm; exact absurd hq' hq
        | m' + 1 =>
          exact ⟨m', w', by simpa using hm, by omega, hq'⟩

theorem collectWhere_ge {q : α → Prop} [DecidablePred q] {ws : List α} {k i : ℕ}
    (h : i ∈ collectWhere q k ws) : k ≤ i := by
  obtain ⟨m, w, -, rfl, -⟩ := mem_collectWhere.1 h
  omega

theorem collectWhere_lt_length {q : α → Prop} [DecidablePred q] {ws : List α} {i : ℕ}
    (h : i ∈ collectWhere q 0 ws) : i < ws.length := by
  obtain ⟨m, w, hm, rfl, -⟩ := mem_collectWhere.1 h
  have := (List.getElem?_eq_some_iff.1 hm).1
  omega

theorem collectWhere_pairwise {q : α → Prop} [DecidablePred q] (ws : List α) :
    ∀ k, (collectWhere q k ws).Pairwise (· < ·) := by
  induction ws with
  | nil => intro k; simp [collectWhere]
  | cons w ws ih =>
    intro k
    by_cases hq : q w
    · simp only [collectWhere, if_pos hq]
      refine List.Pairwise.cons ?_ (ih (k + 1))
      intro x hx
      have := collectWhere_ge hx
      omega
    · simp only [collectWhere, if_neg hq]
      exact ih (k + 1)

theorem collectWhere_nodup {q : α → Prop} [DecidablePred q] (ws : List α) (k : ℕ) :
    (collectWhere q k ws).Nodup :=
  (collectWhere_pairwise ws k).imp ne_of_lt

theorem mem_collectWhere_zero {q : α → Prop} [DecidablePred q] {ws : List α} {i : ℕ} :
    i ∈ collectWhere q 0 ws ↔ ∃ w, ws[i]? = some w ∧ q w := by
  rw [mem_collectWhere]
  constructor
  · rintro ⟨m, w, hm, rfl, hq⟩
    exact ⟨w, by simpa using hm, hq⟩
  · rintro ⟨w, hw, hq⟩
    exact ⟨i, w, hw, by omega, hq⟩

theorem mem_collectWhere_zero_of_lt {q : α → Prop} [DecidablePred q] [Inhabited α]
    {ws : List α} {i : ℕ} (hi : i < ws.length) :
    i ∈ collectWhere q 0 ws ↔ q (ws.getD i default) := by
  rw [mem_collectWhere_zero]
  have hg : ws[i]? = some (ws.getD i default) := by
    rw [List.getD_eq_getElem?_getD, List.getElem?_eq_getElem hi]
    simp
  constructor
  · rintro ⟨w, hw, hq⟩
    rw [hg] at hw
    cases hw; exact hq
  · intro hq
    exact ⟨_, hg, hq⟩

theorem chunksGo_flatten (l : List ℕ) :
    ∀ acc cur, (chunksGo acc cur l).flatten = acc.flatten ++ cur ++ l := by
  induction l with
  | nil => intro acc cur; simp [chunksGo]
  | cons x xs ih =>
    intro acc cur
    by_cases h : cur.getLastD 0 + 1 < x
    · simp only [chunksGo, if_pos h, ih, List.flatten_append]
      simp
    · simp only [chunksGo, if_neg h, ih]
      simp

theorem splitChunks_flatten (l : List ℕ) : (splitChunks l).flatten = l := by
  match l with
  | [] => simp [splitChunks]
  | x :: xs => simp [splitChunks, chunksGo_flatten]

theorem chunksGo_ne_nil (l : List ℕ) :
    ∀ acc cur, (∀ c ∈ acc, c ≠ []) → cur ≠ [] →
      ∀ c ∈ chunksGo acc cur l, c ≠ [] := by
  induction l with
  | nil =>
    intro acc cur hacc hcur c hc
    simp only [chunksGo, List.mem_append, List.mem_singleton] at hc
    rcases hc with hc | rfl
    · exact hacc c hc
    · exact hcur
  | cons x xs ih =>
    intro acc cur hacc hcur c hc
    by_cases h : cur.getLastD 0 + 1 < x
    · rw [chunksGo, if_pos h] at hc
      refine ih _ _ ?_ (by simp) c hc
      intro c' hc'
      simp only [List.mem_append, List.mem_singleton] at hc'
      rcases hc' with hc' | rfl
      · exact hacc c' hc'
      · exact hcur
    · rw [chunksGo, if_neg h] at hc
      exact ih _ _ hacc (by simp) c hc

theorem splitChunks_ne_nil {l : List ℕ} : ∀ c ∈ splitChunks l, c ≠ [] := by
  match l with
  | [] => simp [splitChunks]
  | x :: xs =>
    exact chunksGo_ne_nil xs [] [x] (by simp) (by simp)

theorem mem_of_mem_splitChunks {l : List ℕ} {c : List ℕ} {x : ℕ}
    (hc : c ∈ splitChunks l) (hx : x ∈ c) : x ∈ l := by
  rw [← splitChunks_flatten l]
  exact List.mem_flatten.2 ⟨c, hc, hx⟩

theorem sum_zero_countP {ns : List ℕ} (h : ns.sum = 0) :
    ns.countP (fun n => decide (n ≠ 0)) = 0 := by
  induction ns with
  | nil => rfl
  | cons n ns ih =>
    simp only [List.sum_cons] at h
    have hn : n = 0 := by omega
    have hs : ns.sum = 0 := by omega
    subst hn
    rw [List.countP_cons, ih hs]
    decide

theorem sum_one_countP {ns : List ℕ} (h : ns.sum = 1) :
    ns.countP (fun n => decide (n ≠ 0)) = 1 := by
  induction ns with
  | nil => simp at h
  | cons n ns ih =>
    simp only [List.sum_cons] at h
    rcases Nat.eq_zero_or_pos n with hn | hn
    · have hs : ns.sum = 1 := by omega
      subst hn
      rw [List.countP_cons, ih hs]
      decide
    · have hn1 : n = 1 := by omega
      have hs : ns.sum = 0 := by omega
      subst hn1
      rw [List.countP_cons, sum_zero_countP hs]
      decide

theorem countP_mem_eq_countP_count {L : List (List ℕ)} {i : ℕ} :
    L.countP (fun c => decide (i ∈ c)) =
      (L.map (List.count i)).countP (fun n => decide (n ≠ 0)) := by
  rw [List.countP_map]
  refine List.countP_congr ?_
  intro c _
  simp only [Function.comp_apply, decide_eq_true_eq]
  constructor
  · intro hmem h0
    exact (List.count_eq_zero.1 h0) hmem
  · intro h0
    by_contra hmem
    exact h0 (List.count_eq_zero.2 hmem)

theorem countP_splitChunks_one {l : List ℕ} {i : ℕ} (h : l.count i = 1) :
    (splitChunks l).countP (fun c => decide (i ∈ c)) = 1 := by
  rw [countP_mem_eq_countP_count]
  refine sum_one_countP ?_
  have := List.count_flatten i (splitChunks l)
  rw [splitChunks_flatten] at this
  omega

theorem countP_splitChunks_zero {l : List ℕ} {i : ℕ} (h : l.count i = 0) :
    (splitChunks l).countP (fun c => decide (i ∈ c)) = 0 := by
  rw [countP_mem_eq_countP_count]
  refine sum_zero_countP ?_
  have := List.count_flatten i (splitChunks l)
  rw [splitChunks_flatten] at this
  omega

theorem countP_run_regionsOfBlock {words : List NormWord} {b : BlockInfo}
    {matched : List ℕ} (hnd : matched.Nodup) (i : ℕ) :
    (regionsOfBlock words b matched).countP (fun r => decide (i ∈ r.run)) =
      if i ∈ matched then 1 else 0 := by
  simp only [regionsOfBlock]
  have hperm : (matched.insertionSort (· ≤ ·)).Perm matched :=
    List.perm_insertionSort _ _
  by_cases he : (matched.insertionSort (· ≤ ·)).isEmpty
  · have hms : matched.insertionSort (· ≤ ·) = [] := List.isEmpty_iff.1 he
    have hm : matched = [] := by
      rw [hms] at hperm
      exact (List.perm_nil.1 hperm.symm).symm ▸ rfl
    rw [if_pos he, hm]
    simp [emptyBlockRegion]
  · rw [if_neg he, List.countP_map]
    have hcongr : ((fun r => decide (i ∈ r.run)) ∘ chunkRegion words b) =
        fun c => decide (i ∈ c) := by
      funext c; rfl
    rw [hcongr]
    by_cases hm : i ∈ matched
    · have hnd' : (matched.insertionSort (· ≤ ·)).Nodup := hperm.nodup_iff.2 hnd
      have hm' : i ∈ matched.insertionSort (· ≤ ·) := hperm.mem_iff.2 hm
      rw [countP_splitChunks_one (List.count_eq_one_of_mem hnd' hm'), if_pos hm]
    · have hm' : i ∉ matched.insertionSort (· ≤ ·) := fun h => hm (hperm.mem_iff.1 h)
      rw [countP_splitChunks_zero (List.count_eq_zero.2 hm'), if_neg hm]

theorem countP_run_fregionsOfBlock {tokens : List GToken} {b : FBlock}
    {matched : List ℕ} (_hnd : matched.Nodup) (i : ℕ) :
    (fregionsOfBlock tokens b matched).countP (fun r => decide (i ∈ r.run)) =
      if i ∈ matched then 1 else 0 := by
  simp only [fregionsOfBlock]
  have hperm : (matched.insertionSort (· ≤ ·)).Perm matched :=
    List.perm_insertionSort _ _
  by_cases he : (matched.insertionSort (· ≤ ·)).isEmpty
  · have hms : matched.insertionSort (· ≤ ·) = [] := List.isEmpty_iff.1 he
    have hm : matched = [] := by
      rw [hms] at hperm
      exact (List.perm_nil.1 hperm.symm).symm ▸ rfl
    rw [if_pos he, hm]
    simp [emptyFBlockRegion]
  · rw [if_neg he]
    have : (fchunkRegion tokens b (matched.insertionSort (· ≤ ·))).run =
        matched.insertionSort (· ≤ ·) := rfl
    by_cases hm : i ∈ matched
    · have hm' : i ∈ matched.insertionSort (· ≤ ·) := hperm.mem_iff.2 hm
      simp [fchunkRegion, hm', hm]
    · have hm' : i ∉ matched.insertionSort (· ≤ ·) := fun h => hm (hperm.mem_iff.1 h)
      simp [fchunkRegion, hm', hm]

theorem mem_collectMatched_iff {blocks : List BlockInfo} {words : List NormWord}
    {i j : ℕ} (hi : i < words.length) :
    i ∈ collectMatched (dualAssign blocks) j 0 words ↔
      dualAssign blocks (words.getD i default) = some j :=
  mem_collectWhere_zero_of_lt hi

theorem mem_collectMatchedF_iff {blocks : List FBlock} {cents : List (ℚ × ℚ)}
    {i j : ℕ} (hi : i < cents.length) :
    i ∈ collectMatched (fusionAssign blocks) j 0 cents ↔
      fusionAssign blocks (cents.getD i default) = some j :=
  mem_collectWhere_zero_of_lt hi

theorem mem_collectOrphans_iff {blocks : List BlockInfo} {words : List NormWord}
    {i : ℕ} (hi : i < words.length) :
    i ∈ collectOrphans (dualAssign blocks) 0 words ↔
      dualAssign blocks (words.getD i default) = none :=
  mem_collectWhere_zero_of_lt hi

theorem mem_collectOrphansF_iff {blocks : List FBlock} {cents : List (ℚ × ℚ)}
    {i : ℕ} (hi : i < cents.length) :
    i ∈ collectOrphans (fusionAssign blocks) 0 cents ↔
      fusionAssign blocks (cents.getD i default) = none :=
  mem_collectWhere_zero_of_lt hi

theorem collectMatched_nodup (asg : α → Option ℕ) (j k : ℕ) (ws : List α) :
    (collectMatched asg j k ws).Nodup :=
  collectWhere_nodup ws k

theorem collectOrphans_nodup (asg : α → Option ℕ) (k : ℕ) (ws : List α) :
    (collectOrphans asg k ws).Nodup :=
  collectWhere_nodup ws k

theorem countP_blockRegionsGo_some {blocks : List BlockInfo} {words : List NormWord}
    {i jstar : ℕ} (hi : i < words.length)
    (hasg : dualAssign blocks (words.getD i default) = some jstar) :
    ∀ j0 bs, (blockRegionsGo blocks words j0 bs).countP (fun r => decide (i ∈ r.run)) =
      if j0 ≤ jstar ∧ jstar < j0 + bs.length then 1 else 0 := by
  intro j0 bs
  induction bs generalizing j0 with
  | nil =>
    rw [blockRegionsGo, if_neg (by simp only [List.length_nil]; omega)]
    rfl
  | cons b bs ih =>
    rw [blockRegionsGo, List.countP_append,
      countP_run_regionsOfBlock (collectMatched_nodup _ _ _ _) i, ih (j0 + 1)]
    have hmem : i ∈ collectMatched (dualAssign blocks) j0 0 words ↔ j0 = jstar := by
      rw [mem_collectMatched_iff hi, hasg]
      constructor
      · intro h; cases h; rfl
      · intro h; rw [h]
    by_cases h : j0 = jstar
    · rw [if_pos (hmem.2 h), if_neg (by omega), if_pos (by simp only [List.length_cons]; omega)]
    · rw [if_neg (fun hmm => h (hmem.1 hmm))]
      simp only [List.length_cons]
      split_ifs <;> omega

theorem countP_blockRegionsGo_zero {blocks : List BlockInfo} {words : List NormWord}
    {i : ℕ} (hno : ∀ j, i ∉ collectMatched (dualAssign blocks) j 0 words) :
    ∀ j0 bs, (blockRegionsGo blocks words j0 bs).countP (fun r => decide (i ∈ r.run)) = 0 := by
  intro j0 bs
  induction bs generalizing j0 with
  | nil => rfl
  | cons b bs ih =>
    rw [blockRegionsGo, List.countP_append,
      countP_run_regionsOfBlock (collectMatched_nodup _ _ _ _) i, if_neg (hno j0), ih (j0 + 1)]

theorem countP_fblockRegionsGo_some {blocks : List FBlock} {tokens : List GToken}
    {cents : List (ℚ × ℚ)} {i jstar : ℕ} (hi : i < cents.length)
    (hasg : fusionAssign blocks (cents.getD i default) = some jstar) :
    ∀ j0 bs, (fblockRegionsGo blocks tokens cents j0 bs).countP
        (fun r => decide (i ∈ r.run)) =
      if j0 ≤ jstar ∧ jstar < j0 + bs.length then 1 else 0 := by
  intro j0 bs
  induction bs generalizing j0 with
  | nil =>
    rw [fblockRegionsGo, if_neg (by simp only [List.length_nil]; omega)]
    rfl
  | cons b bs ih =>
    rw [fblockRegionsGo, List.countP_append,
      countP_run_fregionsOfBlock (collectMatched_nodup _ _ _ _) i, ih (j0 + 1)]
    have hmem : i ∈ collectMatched (fusionAssign blocks) j0 0 cents ↔ j0 = jstar := by
      rw [mem_collectMatchedF_iff hi, hasg]
      constructor
      · intro h; cases h; rfl
      · intro h; rw [h]
    by_cases h : j0 = jstar
    · rw [if_pos (hmem.2 h), if_neg (by omega), if_pos (by simp only [List.length_cons]; omega)]
    · rw [if_neg (fun hmm => h (hmem.1 hmm))]
      simp only [List.length_cons]
      split_ifs <;> omega

theorem countP_fblockRegionsGo_zero {blocks : List FBlock} {tokens : List GToken}
    {cents : List (ℚ × ℚ)} {i : ℕ}
    (hno : ∀ j, i ∉ collectMatched (fusionAssign blocks) j 0 cents) :
    ∀ j0 bs, (fblockRegionsGo blocks tokens cents j0 bs).countP
        (fun r => decide (i ∈ r.run)) = 0 := by
  intro j0 bs
  induction bs generalizing j0 with
  | nil => rfl
  | cons b bs ih =>
    rw [fblockRegionsGo, List.countP_append,
      countP_run_fregionsOfBlock (collectMatched_nodup _ _ _ _) i, if_neg (hno j0), ih (j0 + 1)]

theorem countP_run_orphanRegs {words : List NormWord} {orphans : List ℕ}
    (hnd : orphans.Nodup) (i : ℕ) :
    (if orphans.isEmpty then []
        else (splitChunks orphans).map (orphanRegion words)).countP
      (fun r => decide (i ∈ r.run)) = if i ∈ orphans then 1 else 0 := by
  by_cases he : orphans.isEmpty
  · have : orphans = [] := List.isEmpty_iff.1 he
    rw [if_pos he, this]
    simp
  · rw [if_neg he, List.countP_map]
    have hcongr : ((fun r => decide (i ∈ r.run)) ∘ orphanRegion words) =
        fun c => decide (i ∈ c) := by
      funext c; rfl
    rw [hcongr]
    by_cases hm : i ∈ orphans
    · rw [countP_splitChunks_one (List.count_eq_one_of_mem hnd hm), if_pos hm]
    · rw [countP_splitChunks_zero (List.count_eq_zero.2 hm), if_neg hm]

theorem countP_run_finalRegions {blocks : List BlockInfo} {words : List NormWord}
    {i : ℕ} (hi : i < words.length) :
    (finalRegions blocks words).countP (fun r => decide (i ∈ r.run)) = 1 := by
  simp only [finalRegions]
  rw [(List.perm_insertionSort _ _).countP_eq, List.countP_append]
  rcases hasg : dualAssign blocks (words.getD i default) with _ | jstar
  · have hno : ∀ j, i ∉ collectMatched (dualAssign blocks) j 0 words := by
      intro j hj
      rw [mem_collectMatched_iff hi, hasg] at hj
      cases hj
    rw [countP_blockRegionsGo_zero hno 0 blocks]
    have hio : i ∈ collectOrphans (dualAssign blocks) 0 words :=
      (mem_collectOrphans_iff hi).2 hasg
    rw [countP_run_orphanRegs (collectOrphans_nodup _ _ _) i, if_pos hio]
  · have hjlt : jstar < blocks.length := firstIdxP_lt_length hasg
    rw [countP_blockRegionsGo_some hi hasg 0 blocks, if_pos (by omega)]
    have hio : i ∉ collectOrphans (dualAssign blocks) 0 words := by
      rw [mem_collectOrphans_iff hi, hasg]
      simp
    rw [countP_run_orphanRegs (collectOrphans_nodup _ _ _) i, if_neg hio]

theorem countP_run_fusionCore {blocks : List FBlock} {tokens : List GToken}
    {cents : List (ℚ × ℚ)} {i : ℕ} (hi : i < cents.length) :
    (fusionCore blocks tokens cents).countP (fun r => decide (i ∈ r.run)) = 1 := by
  simp only [fusionCore]
  rw [(List.perm_insertionSort _ _).countP_eq, List.countP_append]
  have horph : (if (collectOrphans (fusionAssign blocks) 0 cents).isEmpty then []
      else [fusionOrphanRegion tokens
        (collectOrphans (fusionAssign blocks) 0 cents)]).countP
      (fun r => decide (i ∈ r.run)) =
      if i ∈ collectOrphans (fusionAssign blocks) 0 cents then 1 else 0 := by
    by_cases he : (collectOrphans (fusionAssign blocks) 0 cents).isEmpty
    · have h0 : collectOrphans (fusionAssign blocks) 0 cents = [] :=
        List.isEmpty_iff.1 he
      rw [if_pos he, h0]
      simp
    · rw [if_neg he]
      by_cases hm : i ∈ collectOrphans (fusionAssign blocks) 0 cents
      · simp [fusionOrphanRegion, hm]
      · simp [fusionOrphanRegion, hm]
  rcases hasg : fusionAssign blocks (cents.getD i default) with _ | jstar
  · have hno : ∀ j, i ∉ collectMatched (fusionAssign blocks) j 0 cents := by
      intro j hj
      rw [mem_collectMatchedF_iff hi, hasg] at hj
      cases hj
    rw [countP_fblockRegionsGo_zero hno 0 blocks, horph,
      if_pos ((mem_collectOrphansF_iff hi).2 hasg)]
  · have hjlt : jstar < blocks.length := firstIdxP_lt_length hasg
    rw [countP_fblockRegionsGo_some hi hasg 0 blocks, if_pos (by omega), horph, if_neg ?_]
    rw [mem_collectOrphansF_iff hi, hasg]
    simp

theorem mem_blockRegionsGo {blocks : List BlockInfo} {words : List NormWord}
    {r : Region} :
    ∀ {j0 : ℕ} {bs : List BlockInfo}, r ∈ blockRegionsGo blocks words j0 bs →
      ∃ j b, r ∈ regionsOfBlock words b (collectMatched (dualAssign blocks) j 0 words) := by
  intro j0 bs
  induction bs generalizing j0 with
  | nil =>
    intro h
    rw [blockRegionsGo] at h
    cases h
  | cons b bs ih =>
    intro h
    rw [blockRegionsGo] at h
    rcases List.mem_append.1 h with h | h
    · exact ⟨j0, b, h⟩
    · exact ih h

theorem mem_fblockRegionsGo {blocks : List FBlock} {tokens : List GToken}
    {cents : List (ℚ × ℚ)} {r : FRegion} :
    ∀ {j0 : ℕ} {bs : List FBlock}, r ∈ fblockRegionsGo blocks tokens cents j0 bs →
      ∃ j b, r ∈ fregionsOfBlock tokens b (collectMatched (fusionAssign blocks) j 0 cents) := by
  intro j0 bs
  induction bs generalizing j0 with
  | nil =>
    intro h
    rw [fblockRegionsGo] at h
    cases h
  | cons b bs ih =>
    intro h
    rw [fblockRegionsGo] at h
    rcases List.mem_append.1 h with h | h
    · exact ⟨j0, b, h⟩
    · exact ih h

theorem mem_regionsOfBlock_shape {words : List NormWord} {b : BlockInfo}
    {matched : List ℕ} {r : Region} (h : r ∈ regionsOfBlock words b matched) :
    r = emptyBlockRegion b ∨
      ∃ chunk, chunk ∈ splitChunks (matched.insertionSort (· ≤ ·)) ∧
        r = chunkRegion words b chunk := by
  simp only [regionsOfBlock] at h
  by_cases he : (matched.insertionSort (· ≤ ·)).isEmpty
  · rw [if_pos he] at h
    exact Or.inl (List.mem_singleton.1 h)
  · rw [if_neg he] at h
    obtain ⟨chunk, hc, rfl⟩ := List.mem_map.1 h
    exact Or.inr ⟨chunk, hc, rfl⟩

theorem mem_fregionsOfBlock_shape {tokens : List GToken} {b : FBlock}
    {matched : List ℕ} {r : FRegion} (h : r ∈ fregionsOfBlock tokens b matched) :
    r = emptyFBlockRegion b ∨
      ((matched.insertionSort (· ≤ ·)) ≠ [] ∧
        r = fchunkRegion tokens b (matched.insertionSort (· ≤ ·))) := by
  simp only [fregionsOfBlock] at h
  by_cases he : (matched.insertionSort (· ≤ ·)).isEmpty
  · rw [if_pos he] at h
    exact Or.inl (List.mem_singleton.1 h)
  · rw [if_neg he] at h
    have hr2 := List.mem_singleton.1 h
    refine Or.inr ⟨?_, hr2⟩
    intro hnil
    rw [hnil] at he
    exact he rfl

theorem finalRegions_shape {blocks : List BlockInfo} {words : List NormWord} :
    ∀ r ∈ finalRegions blocks words,
      (∃ b, r = emptyBlockRegion b) ∨
      (∃ b chunk, chunk ≠ [] ∧ (∀ x ∈ chunk, x < words.length) ∧
        r = chunkRegion words b chunk) ∨
      (∃ chunk, chunk ≠ [] ∧ (∀ x ∈ chunk, x < words.length) ∧
        r = orphanRegion words chunk) := by
  intro r hr
  simp only [finalRegions] at hr
  rw [(List.perm_insertionSort _ _).mem_iff] at hr
  rcases List.mem_append.1 hr with h | h
  · obtain ⟨j, b, h⟩ := mem_blockRegionsGo h
    rcases mem_regionsOfBlock_shape h with h | ⟨chunk, hc, rfl⟩
    · exact Or.inl ⟨b, h⟩
    · refine Or.inr (Or.inl ⟨b, chunk, splitChunks_ne_nil _ hc, ?_, rfl⟩)
      intro x hx
      have hx1 : x ∈ (collectMatched (dualAssign blocks) j 0 words).insertionSort (· ≤ ·) :=
        mem_of_mem_splitChunks hc hx
      have hx2 : x ∈ collectMatched (dualAssign blocks) j 0 words :=
        (List.perm_insertionSort _ _).mem_iff.1 hx1
      exact collectWhere_lt_length hx2
  · by_cases he : (collectOrphans (dualAssign blocks) 0 words).isEmpty
    · rw [if_pos he] at h
      cases h
    · rw [if_neg he] at h
      obtain ⟨chunk, hc, rfl⟩ := List.mem_map.1 h
      refine Or.inr (Or.inr ⟨chunk, splitChunks_ne_nil _ hc, ?_, rfl⟩)
      intro x hx
      exact collectWhere_lt_length (mem_of_mem_splitChunks hc hx)

theorem fusionCore_shape {blocks : List FBlock} {tokens : List GToken}
    {cents : List (ℚ × ℚ)} :
    ∀ r ∈ fusionCore blocks tokens cents,
      (∃ b, r = emptyFBlockRegion b) ∨
      (∃ b idxs, idxs ≠ [] ∧ (∀ x ∈ idxs, x < cents.length) ∧
        r = fchunkRegion tokens b idxs) ∨
      (∃ orphans, orphans ≠ [] ∧ (∀ x ∈ orphans, x < cents.length) ∧
        r = fusionOrphanRegion tokens orphans) := by
  intro r hr
  simp only [fusionCore] at hr
  rw [(List.perm_insertionSort _ _).mem_iff] at hr
  rcases List.mem_append.1 hr with h | h
  · obtain ⟨j, b, h⟩ := mem_fblockRegionsGo h
    rcases mem_fregionsOfBlock_shape h with h | ⟨hne, rfl⟩
    · exact Or.inl ⟨b, h⟩
    · refine Or.inr (Or.inl ⟨b, _, hne, ?_, rfl⟩)
      intro x hx
      have hx2 : x ∈ collectMatched (fusionAssign blocks) j 0 cents :=
        (List.perm_insertionSort _ _).mem_iff.1 hx
      exact collectWhere_lt_length hx2
  · by_cases he : (collectOrphans (fusionAssign blocks) 0 cents).isEmpty
    · rw [if_pos he] at h
      cases h
    · rw [if_neg he] at h
      have hr2 := List.mem_singleton.1 h
      refine Or.inr (Or.inr ⟨collectOrphans (fusionAssign blocks) 0 cents, ?_, ?_, hr2⟩)
      · intro hnil
        rw [hnil] at he
        exact he rfl
      · intro x hx
        exact collectWhere_lt_length hx

theorem finalRegions_sorted (blocks : List BlockInfo) (words : List NormWord) :
    (finalRegions blocks words).Pairwise (fun a b => a.sort_key ≤ b.sort_key) := by
  simp only [finalRegions]
  exact List.sorted_insertionSort _ _

theorem fusionCore_sorted (blocks : List FBlock) (tokens : List GToken)
    (cents : List (ℚ × ℚ)) :
    (fusionCore blocks tokens cents).Pairwise (fun a b => a.sort_key ≤ b.sort_key) := by
  simp only [fusionCore]
  exact List.sorted_insertionSort _ _

theorem prepareBlocks_sorted (aws : List AwsBlock) :
    (prepareBlocks aws).Pairwise (fun a b => a.area ≤ b.area) := by
  simp only [prepareBlocks]
  exact List.sorted_insertionSort _ _

theorem prepare_fblocks_sorted (aws : List AwsBlock) :
    (prepare_fblocks aws).Pairwise (fun a b => a.area ≤ b.area) := by
  simp only [prepare_fblocks]
  exact List.sorted_insertionSort _ _

theorem centroids_length {w h : ℚ} :
    ∀ {ts : List GToken} {cs : List (ℚ × ℚ)},
      centroids w h ts = some cs → cs.length = ts.length := by
  intro ts
  induction ts with
  | nil =>
    intro cs hcs
    simp only [centroids, Option.some.injEq] at hcs
    subst hcs; rfl
  | cons t ts ih =>
    intro cs hcs
    rw [centroids] at hcs
    rcases hg : get_centroid t w h with _ | c <;> rw [hg] at hcs
    · cases hcs
    · rcases hr : centroids w h ts with _ | cs' <;> rw [hr] at hcs
      · cases hcs
      · simp only [Option.some.injEq] at hcs
        subst hcs
        simp [ih hr]

theorem get_centroid_no_geometry {t : GToken} (hv : t.vertices = []) (w h : ℚ) :
    get_centroid t w h = none := by
  simp [get_centroid, hv]

theorem centroids_none_of_no_geometry {w h : ℚ} {ts : List GToken} {t : GToken}
    (ht : t ∈ ts) (hv : t.vertices = []) : centroids w h ts = none := by
  induction ts with
  | nil => cases ht
  | cons a ts ih =>
    rcases List.mem_cons.1 ht with rfl | ht'
    · rw [centroids, get_centroid_no_geometry hv]
    · rw [centroids, ih ht']
      rcases get_centroid a w h with _ | c <;> rfl

theorem firstIdxP_min_key (key : α → ℚ) {l : List α}
    (hsort : l.Pairwise (fun a b => key a ≤ key b)) {p : α → Prop}
    [DecidablePred p] {j : ℕ} (h : firstIdxP p l = some j) :
    ∃ a, l[j]? = some a ∧ p a ∧ ∀ a' ∈ l, p a' → key a ≤ key a' := by
  obtain ⟨a, ha, hpa, hmin⟩ := firstIdxP_spec h
  refine ⟨a, ha, hpa, ?_⟩
  intro a' ha' hpa'
  obtain ⟨k, hk⟩ := List.mem_iff_getElem?.1 ha'
  obtain ⟨hjl, hja⟩ := List.getElem?_eq_some_iff.1 ha
  obtain ⟨hkl, hka⟩ := List.getElem?_eq_some_iff.1 hk
  rcases lt_trichotomy k j with hkj | rfl | hjk
  · exact absurd hpa' (hmin k a' hkj hk)
  · rw [hja] at hka
    rw [hka]
  · have hpw := List.pairwise_iff_getElem.1 hsort j k hjl hkl hjk
    rw [hja, hka] at hpw
    exact hpw


theorem headD_mem {l : List ℕ} (h : l ≠ []) : l.headD 0 ∈ l := by
  match l with
  | [] => exact absurd rfl h
  | x :: xs => exact List.mem_cons_self x xs

theorem foldl_if_max (f : GPage → ℚ) :
    ∀ (pages : List GPage) (a : ℚ),
      pages.foldl (fun m p => if m < f p then f p else m) a =
        (pages.map f).foldl max a := by
  intro pages
  induction pages with
  | nil => intro a; rfl
  | cons p ps ih =>
    intro a
    rw [List.foldl_cons, List.map_cons, List.foldl_cons, ih]
    congr 1
    rcases lt_or_ge a (f p) with h | h
    · rw [if_pos h, max_eq_right (le_of_lt h)]
    · rw [if_neg (not_lt.2 h), max_eq_left h]

/-! ## Claims -/

/-- C9 counterexample: on the empty document (no blocks, no tokens) the
dual-stream variant `build_hybrid_entry` returns `None` — the document is
skipped — instead of producing an empty region list as the claim states. -/
theorem claim9_counterexample : build_hybrid_entry [] [] = none := rfl

/-- C9 (amended): on the input with an empty block list and an empty token
list, the `fusion_alg` variant returns the empty region list as a normal
result, while the dual-stream variant skips the document (its
`if not google_words: return None` guard fires, modelled by `none`). -/
theorem claim9_amended :
    deterministic_hybrid_fusion [] [] 1 1 = some [] ∧
      build_hybrid_entry [] [] = none :=
  ⟨rfl, rfl⟩

/-- C3 counterexample: for the run `"Hydro"`(break=`HYPHEN`), `"gen"` the
reconstructed text of `join_words_smart` is NOT `"Hydro - gen"` (it is
`"Hydro -gen"`: the inserted separator `" -"` is a space and a hyphen with
no space after the hyphen). -/
theorem claim3_counterexample :
    join_words_smart [hydroWord, genWord] ≠ "Hydro - gen" := by
  decide

/-- C3 (amended): after a HYPHEN-break token the dual-stream reconstruction
inserts exactly `" -"` (space + hyphen, nothing after), so the two halves
reconstruct to `w1.text ++ " -" ++ w2.text` (= `"Hydro -gen"`, not
`"Hydro - gen"`); and in the `fusion_alg` variant a HYPHEN break inserts
nothing at all, silently joining the halves. -/
theorem claim3_amended (w1 w2 : NormWord) (h1 : w1.break_type = some ("HYPHEN"))
    (t1 t2 : GToken) (g1 : t1.break_type = some ("HYPHEN"))
    (g2 : t2.break_type = none) :
    join_words_smart [w1, w2] = w1.text ++ " -" ++ w2.text ∧
      fusionJoinRaw [t1, t2] = t1.description ++ t2.description := by
  constructor
  · show w1.text ++ breakSep w1.break_type ++ join_words_smart [w2] = _
    rw [h1]
    rfl
  · show ("" ++ t1.description ++ fusionBreakSep t1.break_type) ++
      t2.description ++ fusionBreakSep t2.break_type = _
    rw [g1, g2]
    show ("" ++ t1.description ++ "") ++ t2.description ++ "" = _
    rw [String.empty_append, String.append_empty, String.append_empty]

/-- C3 witness: the amended statement applied to the literal tokens of the
spec example. -/
theorem claim3_witness :
    join_words_smart [hydroWord, genWord] = "Hydro" ++ " -" ++ "gen" ∧
      fusionJoinRaw [hydroToken, genToken] = "Hydro" ++ "gen" :=
  claim3_amended hydroWord genWord rfl hydroToken genToken rfl rfl

/-- C7 counterexample: a token with an empty vertex list makes
`deterministic_hybrid_fusion` raise `ZeroDivisionError` (modelled by
`none`) — it is not "dropped before index assignment" and processing it
does raise an error, contrary to the claim. -/
theorem claim7_counterexample :
    deterministic_hybrid_fusion [] [noGeomToken] 100 100 = none := rfl

/-- C7 (amended): in the dual-stream variant a word with no vertices is
dropped before indexing — deleting it from a paragraph leaves the extracted
(and hence indexed) token list unchanged, and the extractor is total, so no
error is possible; in the `fusion_alg` variant a token with an empty vertex
list instead aborts the whole fusion with a division-by-zero error
(modelled by `none`). -/
theorem claim7_amended :
    (∀ (cw ch : ℚ) (l1 l2 : List GWord) (w : GWord), w.vertices = [] →
      extractParaWords cw ch (l1 ++ w :: l2) = extractParaWords cw ch (l1 ++ l2)) ∧
    (∀ (aws : List AwsBlock) (tokens : List GToken) (pw ph : ℚ) (t : GToken),
      t ∈ tokens → t.vertices = [] →
      deterministic_hybrid_fusion aws tokens pw ph = none) := by
  constructor
  · intro cw ch l1 l2 w hv
    simp only [extractParaWords, List.filterMap_append, List.filterMap_cons, hv,
      List.isEmpty_nil, if_true]
  · intro aws tokens pw ph t ht hv
    rw [deterministic_hybrid_fusion, centroids_none_of_no_geometry ht hv]

/-- C7 witness: dropping the geometry-less `ghostWord` from a concrete
paragraph leaves extraction unchanged, and fusing a concrete document whose
only token is `noGeomToken` errors. -/
theorem claim7_witness :
    extractParaWords 1 1 [realWord, ghostWord] = extractParaWords 1 1 [realWord] ∧
      deterministic_hybrid_fusion [] [noGeomToken] 1 1 = none :=
  ⟨claim7_amended.1 1 1 [realWord] [] ghostWord rfl,
    claim7_amended.2 [] [noGeomToken] 1 1 noGeomToken (by simp) rfl⟩

/-- C8 counterexample: for one page declaring width and height `1/2`, the
returned reference dimensions of `get_google_words_robust` are `(1, 1)` —
NOT the maxima of the declared dimensions (`1/2`): the running maxima start
at `1.0`. -/
theorem claim8_counterexample :
    (get_google_words_robust [smallPage]).2.1 = 1 ∧ ¬ ((1 : ℚ) = 1/2) := by
  constructor
  · norm_num [get_google_words_robust, smallPage]
  · norm_num

/-- C2 (code bug): on a document whose single `LAYOUT_TEXT` block matches
token indices `{0,1,2,5,6}` (tokens 3 and 4 lie outside it), the
dual-stream variant splits the block into the two maximal contiguous runs
`[0,1,2]` and `[5,6]` with `sort_key` 0 and 5 as the claim states, but
`deterministic_hybrid_fusion` emits ONE region carrying all five indices
with `sort_key` 0 — its code never splits into contiguous runs even though
its own comment (`"we group sequential indices"`, the dead `current_run`
variable) and the spec say it must. -/
theorem claim2_thm :
    (finalRegions (prepareBlocks [quarterBlock]) gapWords).map
        (fun r => (r.sort_key, r.run)) =
      [(((0 : ℕ) : ℕ∞), [0, 1, 2]), (((3 : ℕ) : ℕ∞), [3, 4]),
        (((5 : ℕ) : ℕ∞), [5, 6])] ∧
    (deterministic_hybrid_fusion [quarterBlock] gapTokens 1 1).map
        (fun rs => rs.map (fun r => (r.sort_key, r.run))) =
      some [(((0 : ℕ) : ℕ∞), [0, 1, 2, 5, 6]), (((3 : ℕ) : ℕ∞), [3, 4])] := by
  constructor
  · norm_num +decide [finalRegions, prepareBlocks, blockRegionsGo, regionsOfBlock,
      collectMatched, collectOrphans, collectWhere, dualAssign, firstIdxP,
      Rect.containsTol, TOLERANCE, splitChunks, chunksGo, chunkRegion,
      emptyBlockRegion, orphanRegion, join_words_smart, breakSep, quarterBlock,
      gapWords, pyStartsWith, pyReplace, pyReplaceChars, List.isPrefixOf,
      List.filter_cons, List.insertionSort, List.orderedInsert]
  · norm_num +decide [deterministic_hybrid_fusion, fusionCore, prepare_fblocks,
      fusionAssign, fblockRegionsGo, fregionsOfBlock, fchunkRegion,
      emptyFBlockRegion, fusionOrphanRegion, fusionJoinRaw, fusionBreakSep,
      get_centroid, centroids, collectMatched, collectOrphans, collectWhere,
      firstIdxP, Rect.containsTol, TOLERANCE, quarterBlock, gapTokens, pyStrip,
      List.insertionSort, List.orderedInsert]

/-- C4 counterexample: on a document with one block and one token outside
it, the region preserving the empty block (the one with `run = []`) has the
finite `sort_key` 999999 in the dual-stream variant — not `+∞` as the claim
states. -/
theorem claim4_counterexample :
    (finalRegions (prepareBlocks [quarterBlock]) [farWord]).map
        (fun r => (r.sort_key, r.run)) =
      [(((0 : ℕ) : ℕ∞), [0]), (((999999 : ℕ) : ℕ∞), ([] : List ℕ))] ∧
    ((999999 : ℕ) : ℕ∞) ≠ ⊤ := by
  constructor
  · norm_num +decide [finalRegions, prepareBlocks, blockRegionsGo, regionsOfBlock,
      collectMatched, collectOrphans, collectWhere, dualAssign, firstIdxP,
      Rect.containsTol, TOLERANCE, splitChunks, chunksGo, chunkRegion,
      emptyBlockRegion, orphanRegion, join_words_smart, breakSep, quarterBlock,
      farWord, pyStartsWith, pyReplace, pyReplaceChars, List.isPrefixOf,
      List.filter_cons, List.insertionSort, List.orderedInsert]
  · exact WithTop.coe_ne_top

/-- C6 counterexample: an orphan run consisting of the single word `" a"`
is emitted with text `" a"` — the dual-stream variant never trims the
reconstructed text of leading/trailing whitespace, contrary to the claim. -/
theorem claim6_counterexample :
    (finalRegions (prepareBlocks []) [paddedWord]).map (fun r => r.text) =
      [" a"] ∧ pyStrip (" a") ≠ " a" := by
  constructor
  · norm_num +decide [finalRegions, prepareBlocks, blockRegionsGo, regionsOfBlock,
      collectMatched, collectOrphans, collectWhere, dualAssign, firstIdxP,
      Rect.containsTol, TOLERANCE, splitChunks, chunksGo, chunkRegion,
      emptyBlockRegion, orphanRegion, join_words_smart, breakSep, paddedWord,
      List.insertionSort, List.orderedInsert]
  · decide

/-- C1: every token index `i` of the document lies in the run of exactly one
emitted region — one matched-block run or one orphan run, never both, never
neither, never twice (the `countP` of regions whose ghost `run` contains `i`
is exactly 1) — in both variants. -/
theorem claim1_partition (aws : List AwsBlock) (words : List NormWord)
    (tokens : List GToken) (pw ph : ℚ) (i : ℕ) :
    (i < words.length →
      (finalRegions (prepareBlocks aws) words).countP
        (fun r => decide (i ∈ r.run)) = 1) ∧
    (∀ rs, deterministic_hybrid_fusion aws tokens pw ph = some rs →
      i < tokens.length → rs.countP (fun r => decide (i ∈ r.run)) = 1) := by
  constructor
  · intro hi
    exact countP_run_finalRegions hi
  · intro rs hrs hi
    rw [deterministic_hybrid_fusion] at hrs
    rcases hc : centroids pw ph tokens with _ | cents <;> rw [hc] at hrs
    · cases hrs
    · simp only [Option.some.injEq] at hrs
      subst hrs
      exact countP_run_fusionCore (by rw [centroids_length hc]; exact hi)

/-- C1 witness: the partition property evaluated on the concrete gap
document (dual-stream side) and on a single-orphan document
(`fusion_alg` side). -/
theorem claim1_witness :
    (finalRegions (prepareBlocks [quarterBlock]) gapWords).countP
        (fun r => decide (0 ∈ r.run)) = 1 ∧
    ([fusionOrphanRegion [farToken] [0]] : List FRegion).countP
        (fun r => decide (0 ∈ r.run)) = 1 := by
  constructor
  · exact (claim1_partition [quarterBlock] gapWords gapTokens 1 1 0).1 (by decide)
  · refine (claim1_partition [] [] [farToken] 1 1 0).2 _ ?_ (by decide)
    norm_num +decide [deterministic_hybrid_fusion, fusionCore, prepare_fblocks,
      fusionAssign, fblockRegionsGo, fregionsOfBlock, fchunkRegion,
      emptyFBlockRegion, fusionOrphanRegion, fusionJoinRaw, fusionBreakSep,
      get_centroid, centroids, collectMatched, collectOrphans, collectWhere,
      firstIdxP, Rect.containsTol, TOLERANCE, farToken, pyStrip,
      List.insertionSort, List.orderedInsert]

/-- C5: in both variants a token is recorded in the first block (in
ascending-area order) whose rectangle contains its centroid within
tolerance: the block at the assigned position contains the centroid, has
area no larger than ANY block containing the centroid (so of two nested
rectangles both containing it, the smaller-area one wins), and the token is
recorded in no other block. -/
theorem claim5_thm (aws : List AwsBlock) (words : List NormWord)
    (cents : List (ℚ × ℚ)) (i j : ℕ) :
    (i ∈ collectMatched (dualAssign (prepareBlocks aws)) j 0 words →
      ∃ b, (prepareBlocks aws)[j]? = some b ∧
        b.coords.containsTol (words.getD i default).center_x
          (words.getD i default).center_y ∧
        (∀ b' ∈ prepareBlocks aws,
          b'.coords.containsTol (words.getD i default).center_x
            (words.getD i default).center_y → b.area ≤ b'.area) ∧
        (∀ j', i ∈ collectMatched (dualAssign (prepareBlocks aws)) j' 0 words →
          j' = j)) ∧
    (i ∈ collectMatched (fusionAssign (prepare_fblocks aws)) j 0 cents →
      ∃ b, (prepare_fblocks aws)[j]? = some b ∧
        b.rect.containsTol (cents.getD i default).1 (cents.getD i default).2 ∧
        (∀ b' ∈ prepare_fblocks aws,
          b'.rect.containsTol (cents.getD i default).1 (cents.getD i default).2 →
            b.area ≤ b'.area) ∧
        (∀ j', i ∈ collectMatched (fusionAssign (prepare_fblocks aws)) j' 0 cents →
          j' = j)) := by
  constructor
  · intro hm
    have hi : i < words.length := collectWhere_lt_length hm
    have hasg : dualAssign (prepareBlocks aws) (words.getD i default) = some j :=
      (mem_collectMatched_iff hi).1 hm
    obtain ⟨b, hb, hpb, hmin⟩ :=
      firstIdxP_min_key (fun b => b.area) (prepareBlocks_sorted aws) hasg
    refine ⟨b, hb, hpb, hmin, ?_⟩
    intro j' hm'
    have hasg' := (mem_collectMatched_iff hi).1 hm'
    rw [hasg] at hasg'
    cases hasg'
    rfl
  · intro hm
    have hi : i < cents.length := collectWhere_lt_length hm
    have hasg : fusionAssign (prepare_fblocks aws) (cents.getD i default) = some j :=
      (mem_collectMatchedF_iff hi).1 hm
    obtain ⟨b, hb, hpb, hmin⟩ :=
      firstIdxP_min_key (fun b => b.area) (prepare_fblocks_sorted aws) hasg
    refine ⟨b, hb, hpb, hmin, ?_⟩
    intro j' hm'
    have hasg' := (mem_collectMatchedF_iff hi).1 hm'
    rw [hasg] at hasg'
    cases hasg'
    rfl

/-- C5 witness: on the two nested rectangles of `nestBlocks` whose
rectangles both contain `nestWord`, the token is recorded at position 0 of
the area-sorted list and the assigned block's area is minimal among all
containing blocks. -/
theorem claim5_witness :
    (0 ∈ collectMatched (dualAssign (prepareBlocks nestBlocks)) 0 0 [nestWord]) ∧
    (∃ b, (prepareBlocks nestBlocks)[0]? = some b ∧
      b.coords.containsTol ([nestWord].getD 0 default).center_x
        ([nestWord].getD 0 default).center_y ∧
      (∀ b' ∈ prepareBlocks nestBlocks,
        b'.coords.containsTol ([nestWord].getD 0 default).center_x
          ([nestWord].getD 0 default).center_y → b.area ≤ b'.area) ∧
      (∀ j', 0 ∈ collectMatched (dualAssign (prepareBlocks nestBlocks)) j' 0 [nestWord] →
        j' = 0)) := by
  have hm : 0 ∈ collectMatched (dualAssign (prepareBlocks nestBlocks)) 0 0 [nestWord] := by
    norm_num +decide [prepareBlocks, collectMatched, collectWhere, dualAssign,
      firstIdxP, Rect.containsTol, TOLERANCE, nestBlocks, nestWord,
      pyStartsWith, pyReplace, pyReplaceChars, List.isPrefixOf,
      List.filter_cons, List.insertionSort, List.orderedInsert]
  exact ⟨hm, (claim5_thm nestBlocks [nestWord] [] 0 0).1 hm⟩

/-- C6 (amended): in each variant one single reconstruction is applied
identically to matched-block runs, orphan runs and empty-block placeholders
(whose run is empty): every emitted region's text is exactly the
reconstruction of its own run.  The `fusion_alg` reconstruction ends with a
whitespace strip; the dual-stream reconstruction performs NO trim, so its
output can retain leading/trailing whitespace. -/
theorem claim6_amended (blocks : List BlockInfo) (words : List NormWord)
    (aws : List AwsBlock) (tokens : List GToken) (pw ph : ℚ) :
    (∀ r ∈ finalRegions blocks words,
      r.text = join_words_smart (r.run.map (fun idx => words.getD idx default))) ∧
    (∀ rs, deterministic_hybrid_fusion aws tokens pw ph = some rs →
      ∀ r ∈ rs,
        r.text = pyStrip (fusionJoinRaw (r.run.map (fun i => tokens.getD i default)))) := by
  constructor
  · intro r hr
    rcases finalRegions_shape r hr with ⟨b, rfl⟩ | ⟨b, chunk, -, -, rfl⟩ |
      ⟨chunk, -, -, rfl⟩
    · rfl
    · rfl
    · rfl
  · intro rs hrs r hr
    rw [deterministic_hybrid_fusion] at hrs
    rcases hc : centroids pw ph tokens with _ | cents <;> rw [hc] at hrs
    · cases hrs
    · simp only [Option.some.injEq] at hrs
      subst hrs
      rcases fusionCore_shape r hr with ⟨b, rfl⟩ | ⟨b, idxs, -, -, rfl⟩ |
        ⟨orphans, -, -, rfl⟩
      · rfl
      · rfl
      · rfl

/-- C6 witness: the single-orphan `" a"` document: the emitted region's text
equals the untrimmed reconstruction of its run. -/
theorem claim6_witness :
    (orphanRegion [paddedWord] [0]).text =
      join_words_smart (((orphanRegion [paddedWord] [0]).run).map
        (fun idx => [paddedWord].getD idx default)) := by
  have heval : finalRegions (prepareBlocks []) [paddedWord] =
      [orphanRegion [paddedWord] [0]] := by
    norm_num +decide [finalRegions, prepareBlocks, blockRegionsGo, regionsOfBlock,
      collectMatched, collectOrphans, collectWhere, dualAssign, firstIdxP,
      Rect.containsTol, TOLERANCE, splitChunks, chunksGo, chunkRegion,
      emptyBlockRegion, join_words_smart, breakSep,
      List.insertionSort, List.orderedInsert]
  refine (claim6_amended (prepareBlocks []) [paddedWord] [] [] 1 1).1 _ ?_
  rw [heval]
  exact List.mem_singleton.2 rfl

/-- C10: in the dual-stream variant every region emitted by the orphan
branch (ghost flag `orphan = true`) carries the label `Paragraph` and the
degenerate point box `[mx, my, mx, my]` where `mx`/`my` are the arithmetic
means of the normalized centroid coordinates of the run's tokens; for a
single-token run the box is exactly that token's centroid. -/
theorem claim10_thm (blocks : List BlockInfo) (words : List NormWord) :
    ∀ r ∈ finalRegions blocks words, r.orphan = true →
      r.label = "Paragraph" ∧ r.run ≠ [] ∧
      r.box_2d =
        [(r.run.map (fun idx => (words.getD idx default).center_x)).sum /
            ((r.run.length : ℕ) : ℚ),
          (r.run.map (fun idx => (words.getD idx default).center_y)).sum /
            ((r.run.length : ℕ) : ℚ),
          (r.run.map (fun idx => (words.getD idx default).center_x)).sum /
            ((r.run.length : ℕ) : ℚ),
          (r.run.map (fun idx => (words.getD idx default).center_y)).sum /
            ((r.run.length : ℕ) : ℚ)] ∧
      (∀ i, r.run = [i] →
        r.box_2d = [(words.getD i default).center_x,
          (words.getD i default).center_y,
          (words.getD i default).center_x,
          (words.getD i default).center_y]) := by
  intro r hr horph
  rcases finalRegions_shape r hr with ⟨b, rfl⟩ | ⟨b, chunk, -, -, rfl⟩ |
    ⟨chunk, hne, -, rfl⟩
  · cases horph
  · cases horph
  · refine ⟨rfl, hne, ?_, ?_⟩
    · simp only [orphanRegion, List.map_map, List.length_map]
      rfl
    · intro i hrun
      have hrun' : chunk = [i] := hrun
      subst hrun'
      simp only [orphanRegion, List.map_cons, List.map_nil, List.length_cons,
        List.length_nil, List.sum_cons, List.sum_nil, Nat.cast_one]
      norm_num

/-- C10 witness: the single-orphan document whose one region's box is
exactly the token's centroid. -/
theorem claim10_witness :
    (orphanRegion [farWord] [0]).label = "Paragraph" ∧
      (orphanRegion [farWord] [0]).run ≠ [] ∧
      (orphanRegion [farWord] [0]).box_2d =
        [(([farWord].getD 0 default).center_x), (([farWord].getD 0 default).center_y),
          (([farWord].getD 0 default).center_x), (([farWord].getD 0 default).center_y)] := by
  have heval : finalRegions (prepareBlocks []) [farWord] =
      [orphanRegion [farWord] [0]] := by
    norm_num +decide [finalRegions, prepareBlocks, blockRegionsGo, regionsOfBlock,
      collectMatched, collectOrphans, collectWhere, dualAssign, firstIdxP,
      Rect.containsTol, TOLERANCE, splitChunks, chunksGo, chunkRegion,
      emptyBlockRegion, join_words_smart, breakSep,
      List.insertionSort, List.orderedInsert]
  have hmem : orphanRegion [farWord] [0] ∈ finalRegions (prepareBlocks []) [farWord] := by
    rw [heval]
    exact List.mem_singleton.2 rfl
  obtain ⟨h1, h2, -, h4⟩ := claim10_thm (prepareBlocks []) [farWord] _ hmem rfl
  exact ⟨h1, h2, h4 0 rfl⟩

/-- C4 (amended): every region with a nonempty run has `sort_key` equal to
its run's first token index, and every empty-block region (exactly the
regions with `run = []`: matched chunks and orphan runs are never empty)
has the sentinel `sort_key` — `+∞` in the `fusion_alg` variant but the
FINITE `999999` in the dual-stream variant.  The final list is sorted
ascending by `sort_key` (a stable sort), and therefore every empty-block
region comes after every region that has tokens — unconditionally in the
`fusion_alg` variant, and in the dual-stream variant provided the document
has at most 999999 tokens (above that the finite sentinel can collide with
real token indices). -/
theorem claim4_amended (aws : List AwsBlock) (words : List NormWord)
    (tokens : List GToken) (pw ph : ℚ) :
    (∀ r ∈ finalRegions (prepareBlocks aws) words,
      (r.run = [] → r.sort_key = ((999999 : ℕ) : ℕ∞)) ∧
      (r.run ≠ [] → r.sort_key = ((r.run.headD 0 : ℕ) : ℕ∞))) ∧
    (finalRegions (prepareBlocks aws) words).Pairwise
      (fun a b => a.sort_key ≤ b.sort_key) ∧
    (words.length ≤ 999999 →
      (finalRegions (prepareBlocks aws) words).Pairwise
        (fun a b => a.run = [] → b.run = [])) ∧
    (∀ rs, deterministic_hybrid_fusion aws tokens pw ph = some rs →
      (∀ r ∈ rs, (r.run = [] → r.sort_key = ⊤) ∧
        (r.run ≠ [] → r.sort_key = ((r.run.headD 0 : ℕ) : ℕ∞))) ∧
      rs.Pairwise (fun a b => a.sort_key ≤ b.sort_key) ∧
      rs.Pairwise (fun a b => a.run = [] → b.run = [])) := by
  refine ⟨?_, finalRegions_sorted _ _, ?_, ?_⟩
  · intro r hr
    rcases finalRegions_shape r hr with ⟨b, rfl⟩ | ⟨b, chunk, hne, -, rfl⟩ |
      ⟨chunk, hne, -, rfl⟩
    · exact ⟨fun _ => rfl, fun hcon => absurd rfl hcon⟩
    · exact ⟨fun hcon => absurd hcon hne, fun _ => rfl⟩
    · exact ⟨fun hcon => absurd hcon hne, fun _ => rfl⟩
  · intro hlen
    refine List.Pairwise.imp_of_mem ?_ (finalRegions_sorted (prepareBlocks aws) words)
    intro a b ha hb hkey hrunA
    by_contra hrunB
    rcases finalRegions_shape a ha with ⟨ba, rfl⟩ | ⟨ba, ca, hnea, -, rfl⟩ |
      ⟨ca, hnea, -, rfl⟩
    · rcases finalRegions_shape b hb with ⟨bb, rfl⟩ | ⟨bb, cb, hneb, hboundb, rfl⟩ |
        ⟨cb, hneb, hboundb, rfl⟩
      · exact hrunB rfl
      · have hlt : cb.headD 0 < words.length := hboundb _ (headD_mem hneb)
        have hc : ((999999 : ℕ) : ℕ∞) ≤ ((cb.headD 0 : ℕ) : ℕ∞) := hkey
        have : (999999 : ℕ) ≤ cb.headD 0 := by exact_mod_cast hc
        omega
      · have hlt : cb.headD 0 < words.length := hboundb _ (headD_mem hneb)
        have hc : ((999999 : ℕ) : ℕ∞) ≤ ((cb.headD 0 : ℕ) : ℕ∞) := hkey
        have : (999999 : ℕ) ≤ cb.headD 0 := by exact_mod_cast hc
        omega
    · exact absurd hrunA hnea
    · exact absurd hrunA hnea
  · intro rs hrs
    rw [deterministic_hybrid_fusion] at hrs
    rcases hc : centroids pw ph tokens with _ | cents <;> rw [hc] at hrs
    · cases hrs
    · simp only [Option.some.injEq] at hrs
      subst hrs
      refine ⟨?_, fusionCore_sorted _ _ _, ?_⟩
      · intro r hr
        rcases fusionCore_shape r hr with ⟨b, rfl⟩ | ⟨b, idxs, hne, -, rfl⟩ |
          ⟨orphans, hne, -, rfl⟩
        · exact ⟨fun _ => rfl, fun hcon => absurd rfl hcon⟩
        · exact ⟨fun hcon => absurd hcon hne, fun _ => rfl⟩
        · exact ⟨fun hcon => absurd hcon hne, fun _ => rfl⟩
      · refine List.Pairwise.imp_of_mem ?_ (fusionCore_sorted _ _ _)
        intro a b ha hb hkey hrunA
        by_contra hrunB
        rcases fusionCore_shape a ha with ⟨ba, rfl⟩ | ⟨ba, ia, hnea, -, rfl⟩ |
          ⟨ia, hnea, -, rfl⟩
        · rcases fusionCore_shape b hb with ⟨bb, rfl⟩ | ⟨bb, ib, hneb, -, rfl⟩ |
            ⟨ib, hneb, -, rfl⟩
          · exact hrunB rfl
          · have hc2 : (⊤ : ℕ∞) ≤ ((ib.headD 0 : ℕ) : ℕ∞) := hkey
            exact absurd (top_le_iff.1 hc2) WithTop.coe_ne_top
          · have hc2 : (⊤ : ℕ∞) ≤ ((ib.headD 0 : ℕ) : ℕ∞) := hkey
            exact absurd (top_le_iff.1 hc2) WithTop.coe_ne_top
        · exact absurd hrunA hnea
        · exact absurd hrunA hnea

/-- C4 witness: the one-block/one-far-token document: the dual-stream final
list puts the token region before the empty-block region, and the
single-region `fusion_alg` output is trivially sorted. -/
theorem claim4_witness :
    ((finalRegions (prepareBlocks [quarterBlock]) [farWord]).Pairwise
      (fun a b => a.run = [] → b.run = [])) ∧
    ([fusionOrphanRegion [farToken] [0]] : List FRegion).Pairwise
      (fun a b => a.sort_key ≤ b.sort_key) := by
  constructor
  · exact (claim4_amended [quarterBlock] [farWord] [] 1 1).2.2.1 (by decide)
  · refine ((claim4_amended [] [] [farToken] 1 1).2.2.2 _ ?_).2.1
    norm_num +decide [deterministic_hybrid_fusion, fusionCore, prepare_fblocks,
      fusionAssign, fblockRegionsGo, fregionsOfBlock, fchunkRegion,
      emptyFBlockRegion, fusionOrphanRegion, fusionJoinRaw, fusionBreakSep,
      get_centroid, centroids, collectMatched, collectOrphans, collectWhere,
      firstIdxP, Rect.containsTol, TOLERANCE, farToken, pyStrip,
      List.insertionSort, List.orderedInsert]

/-- C8 (amended): on a multi-page input, each page's tokens are normalized
by that page's OWN declared dimensions — with `1.0` substituted for a
declared dimension that is `≤ 0`, independently of the other pages and of
the global reference — while the RETURNED reference dimensions are the
maxima of `1.0` and the declared dimensions (missing ones read as 0) across
all pages: they are clamped below at `1.0`, not the plain maxima of the
declared values.  (A page with a MISSING dimension falls back to the global
maximum, which is why the per-page part assumes the dimensions are
declared.) -/
theorem claim8_amended (l1 l2 : List GPage) (p : GPage) (w h : ℚ)
    (hw : p.width = some w) (hh : p.height = some h) :
    (∃ A B, (get_google_words_robust (l1 ++ p :: l2)).1 =
      A ++ extractPageWords (if w ≤ 0 then 1 else w) (if h ≤ 0 then 1 else h) p
        ++ B) ∧
    (get_google_words_robust (l1 ++ p :: l2)).2.1 =
      ((l1 ++ p :: l2).map (fun q => q.width.getD 0)).foldl max 1 ∧
    (get_google_words_robust (l1 ++ p :: l2)).2.2 =
      ((l1 ++ p :: l2).map (fun q => q.height.getD 0)).foldl max 1 := by
  have hne : ¬ (l1 ++ p :: l2).isEmpty = true := by simp
  refine ⟨?_, ?_, ?_⟩
  · rw [get_google_words_robust, if_neg hne]
    refine ⟨(l1.map (pageWords
        ((l1 ++ p :: l2).foldl (fun m q => if m < q.width.getD 0 then q.width.getD 0 else m) 1)
        ((l1 ++ p :: l2).foldl (fun m q => if m < q.height.getD 0 then q.height.getD 0 else m) 1))).flatten,
      (l2.map (pageWords
        ((l1 ++ p :: l2).foldl (fun m q => if m < q.width.getD 0 then q.width.getD 0 else m) 1)
        ((l1 ++ p :: l2).foldl (fun m q => if m < q.height.getD 0 then q.height.getD 0 else m) 1))).flatten, ?_⟩
    dsimp only
    rw [List.map_append, List.map_cons, List.flatten_append, List.flatten_cons]
    rw [pageWords, hw, hh]
    simp only [Option.getD_some, List.append_assoc]
  · rw [get_google_words_robust, if_neg hne]
    exact foldl_if_max (fun q => q.width.getD 0) (l1 ++ p :: l2) 1
  · rw [get_google_words_robust, if_neg hne]
    exact foldl_if_max (fun q => q.height.getD 0) (l1 ++ p :: l2) 1

/-- C8 witness: the two-page document `[pageA, pageB]`: `pageA`'s word is
normalized by `pageA`'s own declared `100 × 200` even though `pageB`
dominates the returned reference maxima. -/
theorem claim8_witness :
    (∃ A B, (get_google_words_robust [pageA, pageB]).1 =
      A ++ extractPageWords (if (100 : ℚ) ≤ 0 then 1 else 100)
        (if (200 : ℚ) ≤ 0 then 1 else 200) pageA ++ B) ∧
    (get_google_words_robust [pageA, pageB]).2.1 =
      (([pageA, pageB] : List GPage).map (fun q => q.width.getD 0)).foldl max 1 ∧
    (get_google_words_robust [pageA, pageB]).2.2 =
      (([pageA, pageB] : List GPage).map (fun q => q.height.getD 0)).foldl max 1 :=
  claim8_amended [] [pageB] pageA 100 200 rfl rfl

end DocAI
